import Mathlib

/-
Verification of the data-loading core of the Multimodal-Fusion-CRNN repository
(files `utils/load_utils.py` and `utils/load_data.py`), as a shallow embedding.

Modelling conventions:
* numpy float arithmetic is modelled exactly over `ℚ`; `astype(np.int32)` /
  `astype(np.uint8)` of in-range values is truncation toward zero;
* a 2-D numpy array is a list of rows (`List (List ℚ)` or, for `uint8` image
  data, a flattened `List ℕ` per frame — `min`, `max` and all arithmetic used
  on images are elementwise or whole-array reductions, so the layout of a
  frame does not matter);
* Python exceptions (TypeError, IndexError, ValueError, AssertionError) are
  modelled by `Option`, with `none` for a raised exception;
* the file system is passed explicitly: a joint text file is its parsed row
  list, an image directory is a partial map from frame index to the decoded
  and already-resized image (PIL's Lanczos resize, like the external
  `grayscale_variation` transform, is an opaque capability, not logic of this
  repository).
-/

namespace MFCRNN

/-- Truncation toward zero of a rational, the behaviour of numpy's
`astype(np.int32)` on in-range values: floor for nonnegative values,
ceiling for negative ones. -/
def truncQ (q : ℚ) : ℤ :=
  if 0 ≤ q then ⌊q⌋ else ⌈q⌉

/-- Exact-arithmetic model of `np.linspace(start, stop, num)` (endpoint
included): `num` evenly spaced values from `start` to `stop`.  For `num = 1`
numpy returns just `[start]`. -/
def linspace (start stop : ℤ) (num : ℕ) : List ℚ :=
  if num = 1 then [(start : ℚ)]
  else (List.range num).map
    (fun k : ℕ => (start : ℚ) + (k : ℚ) * ((stop : ℚ) - (start : ℚ)) / ((num : ℚ) - 1))

/-- Model of `get_samples(start, end, T)` from `utils/load_utils.py`:
`N = end - start + 1`; if `N < T` return `np.arange(start, end + 1)`,
otherwise return `np.linspace(start, end, T)`; in both cases cast to `int32`
(truncation toward zero).  A negative `T` would make `np.linspace` raise;
that case is modelled by the empty list and excluded by hypotheses. -/
def get_samples (start stop T : ℤ) : List ℤ :=
  let N := stop - start + 1
  if N < T then (List.range N.toNat).map (fun k : ℕ => start + (k : ℤ))
  else (linspace start stop T.toNat).map truncQ

/-- Model of `normalize(image)` from `utils/load_utils.py` on an image with
natural-number (`uint8`/`uint16`) pixel values:
`denom = (i_max - i_min) if i_max > i_min else 1`, result
`(255 * ((image - i_min) / denom)).astype(np.uint8)`.  All intermediate
values lie in `[0, 255]`, so the `uint8` cast is plain truncation toward
zero of an exact nonnegative rational, i.e. `ℕ` floor division. -/
def normalize (image : List ℕ) : List ℕ :=
  let i_min := image.foldr min (image.headD 0)
  let i_max := image.foldr max (image.headD 0)
  let denom := if i_min < i_max then i_max - i_min else 1
  image.map (fun p => 255 * (p - i_min) / denom)

/-- The reduction `image.min()` used by `normalize`. -/
def listMin (image : List ℕ) : ℕ := image.foldr min (image.headD 0)

/-- The reduction `image.max()` used by `normalize`. -/
def listMax (image : List ℕ) : ℕ := image.foldr max (image.headD 0)

/-- Model of `load_joints(joint_path, frame_idxs, T)` from
`utils/load_utils.py`.  `file` is the parsed whitespace-delimited text file
at `joint_path` (one row of `22 * D` floats per captured frame).  Steps of
the source, in order: `np.loadtxt(joint_path)[frame_idxs]` selects the
sampled rows (IndexError when an index is out of range);
`reshape(num_frames, 22, -1)` infers `D` as `width / 22` and fails when the
selection is empty (the `-1` dimension cannot be inferred for a size-0
array) or the width is not a multiple of 22; then the coordinate vector of
palm joint `palm_idx = 1` of the first sampled frame — entries
`D + 0, …, D + (D-1)` of row 0 — is broadcast-subtracted from every joint of
every frame, and the result is flattened back to `(num_frames, 22 * D)`:
entry `i` of each row holds coordinate `i % D` of joint `i / D`, so it loses
`r0.getD (D + i % D) 0`. -/
def load_joints (file : List (List ℚ)) (frame_idxs : List ℕ) :
    Option (List (List ℚ)) := do
  let rows ← frame_idxs.mapM (fun i => file.get? i)
  let r0 ← rows.head?
  let D := r0.length / 22
  if 22 * D = r0.length then
    some (rows.map (fun r =>
      (List.range r.length).map (fun i => r.getD i 0 - r0.getD (D + i % D) 0)))
  else none

/-- Model of `load_image_sequence(image_dir, frame_idxs, T, preprocess_dict,
mode)` from `utils/load_utils.py`.  `image_dir` maps a frame index to the
decoded depth image after the Lanczos resize to `(H_new, W_new)` (`none` for
a missing file, which raises).  When a `gvar` entry is configured the
external `grayscale_variation` transform (an opaque function `g`) is
applied; otherwise `normalize`.  Each processed frame is written into the
pre-allocated `uint8` block at its position, i.e. the result is the ordered
list of processed frames. -/
def load_image_sequence (image_dir : ℤ → Option (List ℕ)) (frame_idxs : List ℤ)
    (gvar : Option (List ℕ → List ℕ)) : Option (List (List ℕ)) :=
  frame_idxs.mapM (fun idx => (image_dir idx).map (fun image =>
    match gvar with
    | some g => g image
    | none => normalize image))

/-- One row of the data list (`utils/load_data.py` reads it with
`data_list.astype(int)`): `(gesture_id, finger_config, subject_id, trial_id,
label_14, label_28, frame_count, original_index)`, the last column appended
by the driver as `np.arange(len(data_list))`. -/
structure DataRow where
  gesture : ℤ
  finger : ℤ
  subject : ℤ
  trial : ℤ
  label14 : ℤ
  label28 : ℤ
  frameCount : ℤ
  origIndex : ℤ

/-- Model of the call `get_samples(num_frames, T)` on the first line of
`SHREC_DHG_Dataset.get_image_joint` (`utils/load_data.py`, line 36).
`get_samples(start, end, T)` has three required positional parameters, so
this two-argument call raises
`TypeError: get_samples() missing 1 required positional argument: T`
before producing any index; the failing call is modelled as `none`. -/
def get_samples_two_args (num_frames T : ℤ) : Option (List ℤ) :=
  none

/-- Model of the static method `SHREC_DHG_Dataset.get_image_joint(data_row,
base_dir, T, D, transform_dict)` from `utils/load_data.py`.  The path
arithmetic is resolved into explicit file-system arguments: `jointFile` is
the parsed `skeletons_image.txt` (for `D = 2`) or `skeletons_world.txt`
(for `D = 3`) of the trial directory derived from `data_row[:4]`, and
`image_dir`/`gvar` feed `load_image_sequence` as above.  The body first
evaluates `get_samples(num_frames, T)` — the two-argument call — so every
invocation fails there; the remaining lines are the loader calls of the
source. -/
def get_image_joint (jointFile : List (List ℚ)) (image_dir : ℤ → Option (List ℕ))
    (gvar : Option (List ℕ → List ℕ)) (data_row : DataRow) (T : ℤ) :
    Option (List (List ℚ) × List (List ℕ)) := do
  let num_frames := data_row.frameCount
  let frame_idxs ← get_samples_two_args num_frames T
  let joint_points ← load_joints jointFile (frame_idxs.map Int.toNat)
  let image_sequence ← load_image_sequence image_dir frame_idxs gvar
  some (joint_points, image_sequence)

/-- Model of `init_cache(data_list, base_dir, T, D, transform_dict,
n_cache_workers)` from `utils/load_data.py`.  `loader_fn` is the
`functools.partial` closure over `SHREC_DHG_Dataset.get_image_joint`;
`pool.imap(func=loader_fn, iterable=data_list)` yields the per-row results
in submission order regardless of worker completion order, and the loop
appends component-wise to `cache["joint"]` and `cache["image"]`.  A raised
exception in any worker propagates out of the loop and aborts the whole
build (`none`). -/
def init_cache {ρ α β : Type} (loader_fn : ρ → Option (α × β)) (data_list : List ρ) :
    Option (List α × List β) :=
  (data_list.mapM loader_fn).map (fun pairs => (pairs.map Prod.fst, pairs.map Prod.snd))

/-- The raw-pair fetch of `SHREC_DHG_Dataset.__getitem__`
(`utils/load_data.py`, lines 70–76): with a cache attached, look up
`cache["joint"][c_idx]` and `cache["image"][c_idx]` at
`c_idx = data_list[idx, 7]` (IndexError when out of range; `c_idx` is
produced by `np.arange`, hence nonnegative); without a cache, call
`get_image_joint` (the `loader`) on the row directly. -/
def fetch_raw {α β : Type} (cache : Option (List α × List β))
    (loader : DataRow → Option (α × β)) (row : DataRow) : Option (α × β) :=
  match cache with
  | some c => do
    let j ← c.1.get? row.origIndex.toNat
    let i ← c.2.get? row.origIndex.toNat
    some (j, i)
  | none => loader row

/-- The label selection of `SHREC_DHG_Dataset.__getitem__`
(`utils/load_data.py`, lines 63–66): column 4 minus one for 14 classes,
column 5 minus one for 28 classes; any other class count leaves `label`
unbound and the later read raises `NameError` (unreachable behind the
constructor assert). -/
def getitem_label (num_classes : ℤ) (row : DataRow) : Option ℤ :=
  if num_classes = 14 then some (row.label14 - 1)
  else if num_classes = 28 then some (row.label28 - 1)
  else none

/-- An all-zero row of the same length as `r`: one row (or one flattened
frame) of the `np.pad(..., mode='constant')` zero padding, whose trailing
dimensions are those of the array being padded. -/
def zeroRowLike (r : List ℚ) : List ℚ := r.map (fun _ => 0)

/-- Model of `SHREC_DHG_Dataset.__getitem__` (`utils/load_data.py`)
after index lookup, for a configuration whose `transform_dict["aug"]` is
`None` (augmentation is the external `utils.augment` module).  In source
order: select the label; read `num_frames = data_list[idx, 6]` (this local
is overwritten before any use, see below); fetch the raw pair from the
cache or the loader; rescale image pixels by `/ 255` to `float32`;
re-assign `num_frames = joint_points.shape[0]`; zero-pad both sequences to
`T` rows/frames when `num_frames < T`. -/
def dataset_getitem (num_classes : ℤ) (T : ℕ)
    (cache : Option (List (List (List ℚ)) × List (List (List ℕ))))
    (loader : DataRow → Option (List (List ℚ) × List (List ℕ)))
    (row : DataRow) : Option (List (List ℚ) × List (List ℚ) × ℤ) := do
  let label ← getitem_label num_classes row
  let (joint_points, raw_image) ← fetch_raw cache loader row
  let image_sequence := raw_image.map (fun f => f.map (fun p : ℕ => (p : ℚ) / 255))
  let num_frames := joint_points.length
  let joint_out :=
    if num_frames < T then
      joint_points ++ List.replicate (T - num_frames) (zeroRowLike (joint_points.headD []))
    else joint_points
  let image_out :=
    if num_frames < T then
      image_sequence ++ List.replicate (T - num_frames) (zeroRowLike (image_sequence.headD []))
    else image_sequence
  some (joint_out, image_out, label)

/-- Modelled from the spec (spec.md §3, Invariants: a sample's label and
frame count are always read from the data list, never recomputed): the
retrieval that the sentence under claim C8 describes.  It is
`dataset_getitem` with one difference — the frame count driving the padding
decision is the data-list value `row.frameCount` instead of the loaded
joint array's length. -/
def dataset_getitem_listcount (num_classes : ℤ) (T : ℕ)
    (cache : Option (List (List (List ℚ)) × List (List (List ℕ))))
    (loader : DataRow → Option (List (List ℚ) × List (List ℕ)))
    (row : DataRow) : Option (List (List ℚ) × List (List ℚ) × ℤ) := do
  let label ← getitem_label num_classes row
  let (joint_points, raw_image) ← fetch_raw cache loader row
  let image_sequence := raw_image.map (fun f => f.map (fun p : ℕ => (p : ℚ) / 255))
  let num_frames := row.frameCount.toNat
  let joint_out :=
    if num_frames < T then
      joint_points ++ List.replicate (T - num_frames) (zeroRowLike (joint_points.headD []))
    else joint_points
  let image_out :=
    if num_frames < T then
      image_sequence ++ List.replicate (T - num_frames) (zeroRowLike (image_sequence.headD []))
    else image_sequence
  some (joint_out, image_out, label)

/-- The dataset object built by `SHREC_DHG_Dataset.__init__`
(`utils/load_data.py`), keeping the fields the claims are about. -/
structure SHREC_DHG_Dataset where
  data_list : List DataRow
  T : ℕ
  D : ℕ
  num_classes : ℤ
  cache : Option (List (List (List ℚ)) × List (List (List ℕ)))

/-- Model of `SHREC_DHG_Dataset.__init__`:
`assert num_classes in [14, 28]` raises `AssertionError` for every other
value, before any field is assigned. -/
def SHREC_DHG_Dataset.init (data_list : List DataRow) (T D : ℕ) (num_classes : ℤ)
    (cache : Option (List (List (List ℚ)) × List (List (List ℕ)))) :
    Option SHREC_DHG_Dataset :=
  if num_classes = 14 ∨ num_classes = 28 then
    some ⟨data_list, T, D, num_classes, cache⟩
  else none

/-- Adding a constant per-coordinate offset `c` (coordinate `i % D` gets
`c.getD (i % D) 0`) to every joint of a `22 * D`-wide row: the translation
of claim C6 applied to one row of a joint file. -/
def addCoordOffset (D : ℕ) (c : List ℚ) (r : List ℚ) : List ℚ :=
  (List.range r.length).map (fun i => r.getD i 0 + c.getD (i % D) 0)

/-- The same data row with a different `frame_count` column (column 6),
every other column unchanged. -/
def setFrameCount (row : DataRow) (m : ℤ) : DataRow :=
  { row with frameCount := m }

/-! ### Evaluation lemmas for the sampler -/

theorem truncQ_intCast (n : ℤ) : truncQ (n : ℚ) = n := by
  unfold truncQ
  split <;> simp

theorem truncQ_intCast_div (n d : ℤ) (hd : 0 < d) :
    truncQ ((n : ℚ) / (d : ℚ)) = n.tdiv d := by
  have hdN : ((d.toNat : ℕ) : ℤ) = d := Int.toNat_of_nonneg hd.le
  have hdQ : ((d.toNat : ℕ) : ℚ) = (d : ℚ) := by exact_mod_cast hdN
  have hfl : ∀ m : ℤ, ⌊(m : ℚ) / (d : ℚ)⌋ = m / d := by
    intro m
    rw [← hdQ, Rat.floor_intCast_div_natCast, hdN]
  rcases le_or_lt 0 n with hn | hn
  · have hq : (0 : ℚ) ≤ (n : ℚ) / (d : ℚ) :=
      div_nonneg (by exact_mod_cast hn) (by positivity)
    rw [truncQ, if_pos hq, hfl, Int.tdiv_eq_ediv hn hd.le]
  · have hq : (n : ℚ) / (d : ℚ) < 0 :=
      div_neg_of_neg_of_pos (by exact_mod_cast hn) (by exact_mod_cast hd)
    rw [truncQ, if_neg (not_le.mpr hq)]
    have hceil : ⌈(n : ℚ) / (d : ℚ)⌉ = -((-n) / d) := by
      rw [show (n : ℚ) / (d : ℚ) = -((((-n : ℤ)) : ℚ) / (d : ℚ)) by push_cast; ring,
        Int.ceil_neg, hfl]
    have htd : n.tdiv d = -((-n).tdiv d) := by rw [Int.neg_tdiv, neg_neg]
    rw [hceil, htd, Int.tdiv_eq_ediv (by omega) hd.le]

/-- In the subsampling branch (`T ≤ N`, `2 ≤ T`), sampled index `k` is the
truncated integer division `(start * (T-1) + k * (stop-start)) tdiv (T-1)`:
the exact value of `linspace` entry `k` cast to `int32`. -/
theorem get_samples_eq_map_tdiv (start stop T : ℤ) (h2 : 2 ≤ T) (hN : T ≤ stop - start + 1) :
    get_samples start stop T =
      (List.range T.toNat).map
        (fun k : ℕ => (start * (T - 1) + (k : ℤ) * (stop - start)).tdiv (T - 1)) := by
  have hbr : ¬ (stop - start + 1 < T) := by omega
  have hT1 : ¬ (T.toNat = 1) := by omega
  rw [get_samples, linspace]
  simp only [if_neg hbr, if_neg hT1, List.map_map]
  apply List.map_congr_left
  intro k hk
  have hQT : ((T.toNat : ℕ) : ℚ) = ((T : ℤ) : ℚ) := by
    exact_mod_cast Int.toNat_of_nonneg (by omega : (0:ℤ) ≤ T)
  have hne : ((T : ℚ) - 1) ≠ 0 := by
    have : (1 : ℚ) < (T : ℚ) := by exact_mod_cast (by omega : (1:ℤ) < T)
    intro h
    nlinarith
  have hval : (start : ℚ) + (k : ℚ) * ((stop : ℚ) - (start : ℚ)) / ((T.toNat : ℚ) - 1)
      = ((start * (T - 1) + (k : ℤ) * (stop - start) : ℤ) : ℚ) / (((T - 1 : ℤ)) : ℚ) := by
    rw [hQT]
    field_simp
  simp only [Function.comp]
  rw [hval, truncQ_intCast_div _ _ (by omega)]

/-- In the pass-through branch (`N < T`) the sampler is `arange(start, end+1)`. -/
theorem get_samples_eq_arange (start stop T : ℤ) (h : stop - start + 1 < T) :
    get_samples start stop T =
      (List.range (stop - start + 1).toNat).map (fun k : ℕ => start + (k : ℤ)) := by
  rw [get_samples]
  simp only [if_pos h]

/-- With `T = 1` and at least one available frame the sampler returns
`[start]` (numpy's `linspace(start, stop, 1)` is `[start]`). -/
theorem get_samples_one (start stop : ℤ) (h : 1 ≤ stop - start + 1) :
    get_samples start stop 1 = [start] := by
  rw [get_samples, linspace]
  simp only [if_neg (by omega : ¬ (stop - start + 1 < 1)), if_pos (by rfl : (1:ℤ).toNat = 1)]
  simp [truncQ_intCast]

/-- C3 (amended): for every `(start, end, T)` with `0 ≤ start ≤ end` and
`T ≥ 1`, the frame sampler returns exactly `min(T, end-start+1)` integer
indices, all within `[start, end]`, strictly increasing; when
`end-start+1 ≥ T`, the first returned index equals `start`, and when
moreover `T ≥ 2` the last returned index equals `end`.  (The amendment adds
`0 ≤ start` — truncation toward zero repeats indices on ranges crossing
zero — and restricts the last-index property to `T ≥ 2`, since
`linspace(start, end, 1)` is `[start]`.) -/
theorem get_samples_spec (start stop T : ℤ)
    (h0 : 0 ≤ start) (hse : start ≤ stop) (hT : 1 ≤ T) :
    (get_samples start stop T).length = (min T (stop - start + 1)).toNat ∧
    (∀ x ∈ get_samples start stop T, start ≤ x ∧ x ≤ stop) ∧
    List.Pairwise (· < ·) (get_samples start stop T) ∧
    (T ≤ stop - start + 1 →
      (get_samples start stop T).head? = some start ∧
      (2 ≤ T → (get_samples start stop T).getLast? = some stop)) := by
  rcases lt_or_le (stop - start + 1) T with hA | hB
  · rw [get_samples_eq_arange start stop T hA]
    refine ⟨?_, ?_, ?_, ?_⟩
    · rw [List.length_map, List.length_range, min_eq_right hA.le]
    · intro x hx
      simp only [List.mem_map, List.mem_range] at hx
      obtain ⟨k, hk, rfl⟩ := hx
      omega
    · refine (List.pairwise_lt_range _).map _ ?_
      intro a b hab
      omega
    · intro hTN
      exact absurd hTN (by omega)
  · rcases lt_or_le T 2 with hT1 | hT2
    · have hTeq : T = 1 := by omega
      subst hTeq
      rw [get_samples_one start stop (by omega)]
      refine ⟨?_, ?_, ?_, ?_⟩
      · simp [min_eq_left (by omega : (1:ℤ) ≤ stop - start + 1)]
      · intro x hx
        simp only [List.mem_singleton] at hx
        subst hx
        exact ⟨le_refl _, hse⟩
      · simp
      · intro _
        exact ⟨rfl, fun h2 => absurd h2 (by omega)⟩
    · rw [get_samples_eq_map_tdiv start stop T hT2 hB]
      have hd : (0:ℤ) < T - 1 := by omega
      have hnum : ∀ k : ℕ, (0:ℤ) ≤ start * (T - 1) + (k:ℤ) * (stop - start) := by
        intro k
        have h1 : (0:ℤ) ≤ start * (T - 1) := mul_nonneg h0 (by omega)
        have h2 : (0:ℤ) ≤ (k:ℤ) * (stop - start) := mul_nonneg (by positivity) (by omega)
        omega
      have hval : ∀ k : ℕ, (start * (T - 1) + (k:ℤ) * (stop - start)).tdiv (T - 1)
          = (start * (T - 1) + (k:ℤ) * (stop - start)) / (T - 1) := fun k =>
        Int.tdiv_eq_ediv (hnum k) hd.le
      have hlow : ∀ k : ℕ, start ≤ (start * (T - 1) + (k:ℤ) * (stop - start)).tdiv (T - 1) := by
        intro k
        rw [hval k]
        calc start = start * (T - 1) / (T - 1) := (Int.mul_ediv_cancel start (by omega)).symm
          _ ≤ (start * (T - 1) + (k:ℤ) * (stop - start)) / (T - 1) :=
            Int.ediv_le_ediv hd (le_add_of_nonneg_right (mul_nonneg (by positivity) (by omega)))
      have hup : ∀ k : ℕ, (k:ℤ) ≤ T - 1 →
          (start * (T - 1) + (k:ℤ) * (stop - start)).tdiv (T - 1) ≤ stop := by
        intro k hk
        rw [hval k]
        calc (start * (T - 1) + (k:ℤ) * (stop - start)) / (T - 1)
            ≤ stop * (T - 1) / (T - 1) :=
              Int.ediv_le_ediv hd
                (by nlinarith [mul_nonneg (sub_nonneg.mpr hse) (sub_nonneg.mpr hk)])
          _ = stop := Int.mul_ediv_cancel stop (by omega)
      have hstrict : StrictMono
          (fun k : ℕ => (start * (T - 1) + (k:ℤ) * (stop - start)).tdiv (T - 1)) := by
        apply strictMono_nat_of_lt_succ
        intro k
        simp only [hval]
        have hstep : start * (T - 1) + ((k + 1 : ℕ):ℤ) * (stop - start)
            = (start * (T - 1) + (k:ℤ) * (stop - start)) + (stop - start) := by
          push_cast
          ring
        have h1 : (start * (T - 1) + (k:ℤ) * (stop - start)) / (T - 1) + 1
            = ((start * (T - 1) + (k:ℤ) * (stop - start)) + 1 * (T - 1)) / (T - 1) :=
          (Int.add_mul_ediv_right _ _ (by omega : T - 1 ≠ 0)).symm
        have h2 : ((start * (T - 1) + (k:ℤ) * (stop - start)) + 1 * (T - 1)) / (T - 1)
            ≤ ((start * (T - 1) + (k:ℤ) * (stop - start)) + (stop - start)) / (T - 1) :=
          Int.ediv_le_ediv hd (by omega)
        rw [hstep]
        omega
      refine ⟨?_, ?_, ?_, ?_⟩
      · rw [List.length_map, List.length_range, min_eq_left hB]
      · intro x hx
        simp only [List.mem_map, List.mem_range] at hx
        obtain ⟨k, hk, rfl⟩ := hx
        exact ⟨hlow k, hup k (by omega)⟩
      · exact (List.pairwise_lt_range _).map _ (fun a b hab => hstrict hab)
      · intro _
        constructor
        · rw [List.head?_map, List.head?_range, if_neg (by omega : ¬ T.toNat = 0)]
          have h0v : (start * (T - 1)).tdiv (T - 1) = start := by
            rw [Int.tdiv_eq_ediv (mul_nonneg h0 (by omega)) hd.le,
              Int.mul_ediv_cancel _ (by omega)]
          simp [h0v]
        · intro _
          rw [List.getLast?_map, List.getLast?_range, if_neg (by omega : ¬ T.toNat = 0)]
          have hlastv : (start * (T - 1) + ((T.toNat - 1 : ℕ):ℤ) * (stop - start)).tdiv (T - 1)
              = stop := by
            rw [show ((T.toNat - 1 : ℕ):ℤ) = T - 1 by omega,
              show start * (T - 1) + (T - 1) * (stop - start) = stop * (T - 1) by ring,
              Int.tdiv_eq_ediv (mul_nonneg (by omega) (by omega)) hd.le,
              Int.mul_ediv_cancel _ (by omega)]
          simp [hlastv]

/-- C3 witness: the amended contract instantiated at `(start, end, T) = (0, 9, 8)`. -/
theorem get_samples_spec_witness :
    (0:ℤ) ≤ 0 ∧ (0:ℤ) ≤ 9 ∧ (1:ℤ) ≤ 8 ∧
    ((get_samples 0 9 8).length = (min 8 (9 - 0 + 1) : ℤ).toNat ∧
     (∀ x ∈ get_samples 0 9 8, (0:ℤ) ≤ x ∧ x ≤ 9) ∧
     List.Pairwise (· < ·) (get_samples 0 9 8) ∧
     ((8:ℤ) ≤ 9 - 0 + 1 →
       (get_samples 0 9 8).head? = some 0 ∧
       ((2:ℤ) ≤ 8 → (get_samples 0 9 8).getLast? = some 9))) :=
  ⟨by decide, by decide, by decide, get_samples_spec 0 9 8 (by decide) (by decide) (by decide)⟩

/-- C3 counterexample: the claim as stated (all `(start, end, T)` with
`end ≥ start`, `T ≥ 1`) fails.  At `(-2, 3, 5)` the returned list is
`[-2, 0, 0, 1, 3]` — not strictly increasing, because `astype(np.int32)`
truncates toward zero on both sides of zero; at `(0, 5, 1)` the single
returned index is `0`, so the last index is not `end = 5` although
`end - start + 1 ≥ T`. -/
theorem get_samples_claim_cex :
    ((-2:ℤ) ≤ 3 ∧ (1:ℤ) ≤ 5 ∧ ¬ List.Pairwise (· < ·) (get_samples (-2) 3 5)) ∧
    ((0:ℤ) ≤ 5 ∧ (1:ℤ) ≤ 1 ∧ (1:ℤ) ≤ 5 - 0 + 1 ∧
      (get_samples 0 5 1).getLast? ≠ some 5) := by
  constructor
  · refine ⟨by decide, by decide, ?_⟩
    rw [get_samples_eq_map_tdiv (-2) 3 5 (by omega) (by omega)]
    decide
  · refine ⟨by decide, by decide, by decide, ?_⟩
    rw [get_samples_one 0 5 (by omega)]
    decide

/-! ### Reduction lemmas for the min and max of a pixel list -/

theorem foldr_min_le_init (l : List ℕ) (d : ℕ) : l.foldr min d ≤ d := by
  induction l with
  | nil => simp
  | cons a t ih => exact le_trans (min_le_right _ _) ih

theorem foldr_min_le_mem (l : List ℕ) (d : ℕ) : ∀ x ∈ l, l.foldr min d ≤ x := by
  induction l with
  | nil => intro x hx; cases hx
  | cons a t ih =>
    intro x hx
    rcases List.mem_cons.mp hx with rfl | hx
    · exact min_le_left _ _
    · exact le_trans (min_le_right _ _) (ih x hx)

theorem foldr_min_eq_or_mem (l : List ℕ) (d : ℕ) :
    l.foldr min d = d ∨ l.foldr min d ∈ l := by
  induction l with
  | nil => exact Or.inl rfl
  | cons a t ih =>
    rcases min_choice a (t.foldr min d) with h | h
    · exact Or.inr (by rw [List.foldr_cons, h]; exact List.mem_cons_self a t)
    · rcases ih with h1 | h1
      · exact Or.inl (by rw [List.foldr_cons, h, h1])
      · exact Or.inr (by rw [List.foldr_cons, h]; exact List.mem_cons_of_mem a h1)

theorem foldr_max_init_le (l : List ℕ) (d : ℕ) : d ≤ l.foldr max d := by
  induction l with
  | nil => simp
  | cons a t ih => exact le_trans ih (le_max_right _ _)

theorem foldr_max_mem_le (l : List ℕ) (d : ℕ) : ∀ x ∈ l, x ≤ l.foldr max d := by
  induction l with
  | nil => intro x hx; cases hx
  | cons a t ih =>
    intro x hx
    rcases List.mem_cons.mp hx with rfl | hx
    · exact le_max_left _ _
    · exact le_trans (ih x hx) (le_max_right _ _)

theorem foldr_max_eq_or_mem (l : List ℕ) (d : ℕ) :
    l.foldr max d = d ∨ l.foldr max d ∈ l := by
  induction l with
  | nil => exact Or.inl rfl
  | cons a t ih =>
    rcases max_choice a (t.foldr max d) with h | h
    · exact Or.inr (by rw [List.foldr_cons, h]; exact List.mem_cons_self a t)
    · rcases ih with h1 | h1
      · exact Or.inl (by rw [List.foldr_cons, h, h1])
      · exact Or.inr (by rw [List.foldr_cons, h]; exact List.mem_cons_of_mem a h1)

theorem headD_mem {l : List ℕ} (h : l ≠ []) : l.headD 0 ∈ l := by
  cases l with
  | nil => exact absurd rfl h
  | cons a t => exact List.mem_cons_self a t

theorem listMin_le {l : List ℕ} {x : ℕ} (hx : x ∈ l) : listMin l ≤ x :=
  foldr_min_le_mem l (l.headD 0) x hx

theorem listMin_mem {l : List ℕ} (h : l ≠ []) : listMin l ∈ l := by
  rcases foldr_min_eq_or_mem l (l.headD 0) with h1 | h1
  · rw [listMin, h1]; exact headD_mem h
  · exact h1

theorem le_listMax {l : List ℕ} {x : ℕ} (hx : x ∈ l) : x ≤ listMax l :=
  foldr_max_mem_le l (l.headD 0) x hx

theorem listMax_mem {l : List ℕ} (h : l ≠ []) : listMax l ∈ l := by
  rcases foldr_max_eq_or_mem l (l.headD 0) with h1 | h1
  · rw [listMax, h1]; exact headD_mem h
  · exact h1

/-- Unfolding of `normalize` in terms of the named reductions. -/
theorem normalize_eq (image : List ℕ) :
    normalize image = image.map (fun p => 255 * (p - listMin image) /
      (if listMin image < listMax image then listMax image - listMin image else 1)) :=
  rfl

/-- C2 (amended): the division-by-zero guard forces a positive denominator on
every input; for every constant-valued nonempty image the output is the
all-zero image of the same shape (not the unchanged input: the minimum is
still subtracted before the guarded division); for every non-constant image
the output has minimum 0 and maximum 255. -/
theorem normalize_spec (image : List ℕ) (hne : image ≠ []) :
    0 < (if listMin image < listMax image then listMax image - listMin image else 1) ∧
    ((∀ x ∈ image, x = image.headD 0) →
      normalize image = image.map (fun _ => 0)) ∧
    ((¬ ∀ x ∈ image, x = image.headD 0) →
      listMin (normalize image) = 0 ∧ listMax (normalize image) = 255) := by
  refine ⟨?_, ?_, ?_⟩
  · split
    · omega
    · omega
  · intro hconst
    rw [normalize_eq]
    apply List.map_congr_left
    intro p hp
    have hpmin : p = listMin image := by
      rw [hconst p hp, hconst (listMin image) (listMin_mem hne)]
    rw [hpmin, Nat.sub_self, Nat.mul_zero, Nat.zero_div]
  · intro hnc
    have hlt : listMin image < listMax image := by
      rcases Nat.lt_or_ge (listMin image) (listMax image) with h | h
      · exact h
      · exfalso
        apply hnc
        intro x hx
        have h1 : x = listMin image :=
          le_antisymm (le_trans (le_listMax hx) h) (listMin_le hx)
        have h2 : image.headD 0 = listMin image :=
          le_antisymm (le_trans (le_listMax (headD_mem hne)) h) (listMin_le (headD_mem hne))
        rw [h1, h2]
    have hden : (if listMin image < listMax image then listMax image - listMin image else 1)
        = listMax image - listMin image := if_pos hlt
    have hdpos : 0 < listMax image - listMin image := Nat.sub_pos_of_lt hlt
    have hboundall : ∀ y ∈ normalize image, y ≤ 255 := by
      intro y hy
      rw [normalize_eq, hden] at hy
      rcases List.mem_map.mp hy with ⟨p, hp, rfl⟩
      calc 255 * (p - listMin image) / (listMax image - listMin image)
          ≤ 255 * (listMax image - listMin image) / (listMax image - listMin image) :=
            Nat.div_le_div_right
              (Nat.mul_le_mul_left 255 (Nat.sub_le_sub_right (le_listMax hp) _))
        _ = 255 := Nat.mul_div_cancel 255 hdpos
    have hzero_mem : 0 ∈ normalize image := by
      rw [normalize_eq, hden]
      refine List.mem_map.mpr ⟨listMin image, listMin_mem hne, ?_⟩
      rw [Nat.sub_self, Nat.mul_zero, Nat.zero_div]
    have h255_mem : (255 : ℕ) ∈ normalize image := by
      rw [normalize_eq, hden]
      refine List.mem_map.mpr ⟨listMax image, listMax_mem hne, ?_⟩
      rw [Nat.mul_div_cancel 255 hdpos]
    have hn_ne : normalize image ≠ [] := by
      intro h
      rw [h] at hzero_mem
      cases hzero_mem
    constructor
    · exact Nat.le_zero.mp (listMin_le hzero_mem)
    · exact le_antisymm (hboundall _ (listMax_mem hn_ne)) (le_listMax h255_mem)

/-- C2 witness: the amended statement instantiated at the non-constant image
`[3, 7]` and (inside the constant branch of the conjunction) exercised
vacuously; a separate concrete constant image is checked in the
counterexample. -/
theorem normalize_spec_witness :
    ([3, 7] : List ℕ) ≠ [] ∧
    (0 < (if listMin [3, 7] < listMax [3, 7] then listMax [3, 7] - listMin [3, 7] else 1) ∧
     ((∀ x ∈ ([3, 7] : List ℕ), x = ([3, 7] : List ℕ).headD 0) →
       normalize [3, 7] = ([3, 7] : List ℕ).map (fun _ => 0)) ∧
     ((¬ ∀ x ∈ ([3, 7] : List ℕ), x = ([3, 7] : List ℕ).headD 0) →
       listMin (normalize [3, 7]) = 0 ∧ listMax (normalize [3, 7]) = 255)) :=
  ⟨by decide, normalize_spec [3, 7] (by decide)⟩

/-- C2 counterexample: the claim as stated is false — on the constant image
`[7, 7]` the function returns `[0, 0]`, not the input unchanged, because the
guard only fixes the denominator while the minimum is still subtracted. -/
theorem normalize_claim_cex :
    normalize [7, 7] ≠ [7, 7] ∧ normalize [7, 7] = [0, 0] := by
  decide

/-! ### The cache builder and the raw-pair fetch -/

theorem mapM_option_eq_some {α β : Type} (f : α → Option β) :
    ∀ (l : List α) (res : List β), l.mapM f = some res →
      res.length = l.length ∧ ∀ k a, l.get? k = some a → f a = res.get? k := by
  intro l
  induction l with
  | nil =>
    intro res h
    have h0 : (([] : List α).mapM f) = some ([] : List β) := rfl
    rw [h0] at h
    have hres : res = [] := (Option.some_inj.mp h).symm
    subst hres
    refine ⟨rfl, ?_⟩
    intro k a hk
    simp at hk
  | cons a t ih =>
    intro res h
    rw [List.mapM_cons] at h
    cases hfa : f a with
    | none => rw [hfa] at h; simp at h
    | some b =>
      rw [hfa] at h
      cases hmt : t.mapM f with
      | none => rw [hmt] at h; simp at h
      | some bs =>
        rw [hmt] at h
        have hres : b :: bs = res := by simpa using h
        subst hres
        obtain ⟨hlen, hpt⟩ := ih bs hmt
        refine ⟨by simp [hlen], ?_⟩
        intro k x hk
        cases k with
        | zero =>
          simp only [List.get?_cons_zero, Option.some.injEq] at hk
          subst hk
          simp [hfa]
        | succ k =>
          simp only [List.get?_cons_succ] at hk ⊢
          exact hpt k x hk

/-- Structure of a successfully built cache: one joint entry and one image
entry per input row, in input order, each the output of the per-row loader
on that row. -/
theorem init_cache_components {ρ α β : Type} (loader_fn : ρ → Option (α × β))
    (data_list : List ρ) (cache : List α × List β)
    (h : init_cache loader_fn data_list = some cache) :
    cache.1.length = data_list.length ∧ cache.2.length = data_list.length ∧
    ∀ k row, data_list.get? k = some row →
      ∃ j i, cache.1.get? k = some j ∧ cache.2.get? k = some i ∧
        loader_fn row = some (j, i) := by
  unfold init_cache at h
  cases hm : data_list.mapM loader_fn with
  | none => rw [hm] at h; cases h
  | some pairs =>
    rw [hm] at h
    have hcache : (pairs.map Prod.fst, pairs.map Prod.snd) = cache := by simpa using h
    subst hcache
    obtain ⟨hlen, hpt⟩ := mapM_option_eq_some loader_fn data_list pairs hm
    refine ⟨by simp [hlen], by simp [hlen], ?_⟩
    intro k row hk
    cases hp : pairs.get? k with
    | none =>
      exfalso
      have hk1 : k < data_list.length := by
        rcases List.get?_eq_some.mp hk with ⟨hlt, _⟩
        exact hlt
      have hk2 : pairs.length ≤ k := List.get?_eq_none.mp hp
      omega
    | some p =>
      refine ⟨p.1, p.2, ?_, ?_, ?_⟩
      · rw [List.get?_eq_getElem?, List.getElem?_map, ← List.get?_eq_getElem?, hp]
        rfl
      · rw [List.get?_eq_getElem?, List.getElem?_map, ← List.get?_eq_getElem?, hp]
        rfl
      · rw [hpt k row hk, hp]

/-- C9 (confirmed): for every input data list, a successfully built cache has
one joint entry and one image entry per input row, and the entry pair at
position `i` is exactly the per-row loader's output on row `i` of the input
list — `pool.imap` preserves submission order. -/
theorem init_cache_spec {ρ α β : Type} (loader_fn : ρ → Option (α × β))
    (data_list : List ρ) (cache : List α × List β)
    (h : init_cache loader_fn data_list = some cache) :
    cache.1.length = data_list.length ∧ cache.2.length = data_list.length ∧
    ∀ k row, data_list.get? k = some row →
      ∃ j i, cache.1.get? k = some j ∧ cache.2.get? k = some i ∧
        loader_fn row = some (j, i) :=
  init_cache_components loader_fn data_list cache h

/-- C9 witness: a one-row data list with a loader reading the frame count. -/
theorem init_cache_spec_witness :
    init_cache (fun r : DataRow => some (r.frameCount.toNat, (0 : ℕ)))
        [⟨1, 1, 3, 1, 5, 12, 10, 0⟩] = some ([10], [0]) ∧
    (([10] : List ℕ).length = [(⟨1, 1, 3, 1, 5, 12, 10, 0⟩ : DataRow)].length ∧
     ([0] : List ℕ).length = [(⟨1, 1, 3, 1, 5, 12, 10, 0⟩ : DataRow)].length ∧
     ∀ k row, [(⟨1, 1, 3, 1, 5, 12, 10, 0⟩ : DataRow)].get? k = some row →
       ∃ j i, ([10] : List ℕ).get? k = some j ∧ ([0] : List ℕ).get? k = some i ∧
         (fun r : DataRow => some (r.frameCount.toNat, (0 : ℕ))) row = some (j, i)) :=
  ⟨rfl, init_cache_spec (fun r : DataRow => some (r.frameCount.toNat, (0 : ℕ)))
    [⟨1, 1, 3, 1, 5, 12, 10, 0⟩] ([10], [0]) rfl⟩

/-- C4 (confirmed): for a fixed data row whose `original_index` column points
at its position in the list the cache was built from, and any per-row loader
(in the code, `get_image_joint` with fixed `base_dir`, `T`, `D` and
transforms — hence fixed sampling), the pair fetched from the cache equals
the pair the direct cache-miss path computes. -/
theorem cache_direct_equiv {α β : Type} (loader : DataRow → Option (α × β))
    (full : List DataRow) (c : List α × List β) (row : DataRow) (k : ℕ)
    (hc : init_cache loader full = some c)
    (hrow : full.get? k = some row)
    (hidx : row.origIndex = (k : ℤ)) :
    fetch_raw (some c) loader row = fetch_raw none loader row := by
  obtain ⟨h1, h2, h3⟩ := init_cache_components loader full c hc
  obtain ⟨j, i, hj, hi, hl⟩ := h3 k row hrow
  have htn : row.origIndex.toNat = k := by omega
  simp only [fetch_raw, htn, hj, hi, hl, Option.bind_some]
  rfl

/-- C4 witness: a one-row list, its row at original index 0. -/
theorem cache_direct_equiv_witness :
    fetch_raw (some ([(0 : ℕ)], [(0 : ℕ)])) (fun _ : DataRow => some (0, 0))
        ⟨1, 1, 3, 1, 5, 12, 10, 0⟩
      = fetch_raw none (fun _ : DataRow => some (0, 0)) ⟨1, 1, 3, 1, 5, 12, 10, 0⟩ :=
  cache_direct_equiv (fun _ : DataRow => some (0, 0)) [⟨1, 1, 3, 1, 5, 12, 10, 0⟩]
    ([0], [0]) ⟨1, 1, 3, 1, 5, 12, 10, 0⟩ 0 rfl rfl (by decide)

/-! ### The per-index retrieval -/

/-- Unfolding of `dataset_getitem` when the label selection and the raw
fetch both succeed. -/
theorem dataset_getitem_eq (num_classes : ℤ) (T : ℕ)
    (cache : Option (List (List (List ℚ)) × List (List (List ℕ))))
    (loader : DataRow → Option (List (List ℚ) × List (List ℕ)))
    (row : DataRow) (label : ℤ) (jp : List (List ℚ)) (ri : List (List ℕ))
    (hl : getitem_label num_classes row = some label)
    (hf : fetch_raw cache loader row = some (jp, ri)) :
    dataset_getitem num_classes T cache loader row =
      some
        (if jp.length < T then
          jp ++ List.replicate (T - jp.length) (zeroRowLike (jp.headD []))
        else jp,
        (if jp.length < T then
          (ri.map (fun f => f.map (fun p : ℕ => (p : ℚ) / 255))) ++
            List.replicate (T - jp.length)
              (zeroRowLike ((ri.map (fun f => f.map (fun p : ℕ => (p : ℚ) / 255))).headD []))
        else ri.map (fun f => f.map (fun p : ℕ => (p : ℚ) / 255))),
        label) := by
  unfold dataset_getitem
  rw [hl, hf]
  rfl

/-- C7 (confirmed): the constructor raises exactly when the configured class
count is neither 14 nor 28; retrieval with 14 classes returns the fifth
data-list column minus 1 as the label, retrieval with 28 classes the sixth
column minus 1. -/
theorem init_and_label_spec (data_list : List DataRow) (T D : ℕ) (num_classes : ℤ)
    (cache : Option (List (List (List ℚ)) × List (List (List ℕ))))
    (T2 : ℕ) (cache2 : Option (List (List (List ℚ)) × List (List (List ℕ))))
    (loader : DataRow → Option (List (List ℚ) × List (List ℕ)))
    (row : DataRow) (out14 out28 : List (List ℚ) × List (List ℚ) × ℤ)
    (h14 : dataset_getitem 14 T2 cache2 loader row = some out14)
    (h28 : dataset_getitem 28 T2 cache2 loader row = some out28) :
    ((SHREC_DHG_Dataset.init data_list T D num_classes cache).isSome ↔
      num_classes = 14 ∨ num_classes = 28) ∧
    out14.2.2 = row.label14 - 1 ∧ out28.2.2 = row.label28 - 1 := by
  refine ⟨?_, ?_, ?_⟩
  · by_cases h : num_classes = 14 ∨ num_classes = 28
    · rw [SHREC_DHG_Dataset.init, if_pos h]
      simp [h]
    · rw [SHREC_DHG_Dataset.init, if_neg h]
      simp [h]
  · cases hf : fetch_raw cache2 loader row with
    | none =>
      exfalso
      unfold dataset_getitem at h14
      rw [hf] at h14
      simp [getitem_label] at h14
    | some pr =>
      obtain ⟨jp, ri⟩ := pr
      rw [dataset_getitem_eq 14 T2 cache2 loader row (row.label14 - 1) jp ri rfl hf] at h14
      have := Option.some_inj.mp h14
      rw [← this]
  · cases hf : fetch_raw cache2 loader row with
    | none =>
      exfalso
      unfold dataset_getitem at h28
      rw [hf] at h28
      simp [getitem_label] at h28
    | some pr =>
      obtain ⟨jp, ri⟩ := pr
      rw [dataset_getitem_eq 28 T2 cache2 loader row (row.label28 - 1) jp ri rfl hf] at h28
      have := Option.some_inj.mp h28
      rw [← this]

/-- C7 witness: a configuration with class count 14 (constructor succeeds)
and a concrete retrieval with one cached empty pair, exercising both label
columns of the row `(1, 1, 3, 1, 5, 12, 10, 0)`: labels `5 - 1` and
`12 - 1`. -/
theorem init_and_label_spec_witness :
    ((SHREC_DHG_Dataset.init [] 8 2 14 none).isSome ↔ (14 : ℤ) = 14 ∨ (14 : ℤ) = 28) ∧
    (([], [], (4 : ℤ)) : List (List ℚ) × List (List ℚ) × ℤ).2.2
      = (⟨1, 1, 3, 1, 5, 12, 10, 0⟩ : DataRow).label14 - 1 ∧
    (([], [], (11 : ℤ)) : List (List ℚ) × List (List ℚ) × ℤ).2.2
      = (⟨1, 1, 3, 1, 5, 12, 10, 0⟩ : DataRow).label28 - 1 :=
  init_and_label_spec [] 8 2 14 none 0 (some ([[]], [[]])) (fun _ => none)
    ⟨1, 1, 3, 1, 5, 12, 10, 0⟩ ([], [], 4) ([], [], 11) rfl rfl

theorem zeroRowLike_mem {r : List ℚ} {x : ℚ} (hx : x ∈ zeroRowLike r) : x = 0 := by
  obtain ⟨a, _, h⟩ := List.mem_map.mp hx
  exact h.symm

/-- C8 (amended): the label is read from the data-list row (columns 5 and 6,
1-indexed, converted by subtracting 1); but the frame count used for
assembly is not: `num_frames = data_list[idx, 6]` is overwritten by
`num_frames = joint_points.shape[0]` before any use, so a (cached)
retrieval is unchanged under arbitrary modification of the data-list
frame-count column. -/
theorem getitem_count_independence (num_classes : ℤ) (T : ℕ)
    (c : List (List (List ℚ)) × List (List (List ℕ)))
    (loader : DataRow → Option (List (List ℚ) × List (List ℕ)))
    (row : DataRow) (m : ℤ) :
    dataset_getitem num_classes T (some c) loader (setFrameCount row m)
      = dataset_getitem num_classes T (some c) loader row ∧
    getitem_label 14 row = some (row.label14 - 1) ∧
    getitem_label 28 row = some (row.label28 - 1) :=
  ⟨rfl, rfl, rfl⟩

/-- C8 counterexample: the claim as stated is false on the code.  With
data-list frame count 5, a cached joint array of 3 rows and `T = 4`, the
retrieval pads to 4 rows — it uses the loaded length 3 — whereas the
retrieval described by the claim (`dataset_getitem_listcount`, which reads
the frame count from the data list) would return the 3 rows unpadded. -/
theorem getitem_count_claim_cex :
    (dataset_getitem 14 4 (some ([[[0], [0], [0]]], [[[], [], []]])) (fun _ => none)
        ⟨1, 1, 3, 1, 5, 12, 5, 0⟩).map (fun out => out.1.length) = some 4 ∧
    (dataset_getitem_listcount 14 4 (some ([[[0], [0], [0]]], [[[], [], []]])) (fun _ => none)
        ⟨1, 1, 3, 1, 5, 12, 5, 0⟩).map (fun out => out.1.length) = some 3 ∧
    dataset_getitem 14 4 (some ([[[0], [0], [0]]], [[[], [], []]])) (fun _ => none)
        ⟨1, 1, 3, 1, 5, 12, 5, 0⟩
      ≠ dataset_getitem_listcount 14 4 (some ([[[0], [0], [0]]], [[[], [], []]]))
          (fun _ => none) ⟨1, 1, 3, 1, 5, 12, 5, 0⟩ := by
  refine ⟨rfl, rfl, ?_⟩
  intro h
  have h4 : (dataset_getitem 14 4 (some ([[[0], [0], [0]]], [[[], [], []]])) (fun _ => none)
      ⟨1, 1, 3, 1, 5, 12, 5, 0⟩).map (fun out => out.1.length) = some 4 := rfl
  have h3 : (dataset_getitem_listcount 14 4 (some ([[[0], [0], [0]]], [[[], [], []]]))
      (fun _ => none) ⟨1, 1, 3, 1, 5, 12, 5, 0⟩).map (fun out => out.1.length) = some 3 := rfl
  rw [h, h3] at h4
  simp at h4

/-- C5 (confirmed): when the loaded pair has fewer frames than `T` (the same
count in both modalities), the retrieval returns exactly `T` frames in both
tensors, and every frame past the loaded count is all-zero in both
modalities. -/
theorem getitem_padding_spec (num_classes : ℤ) (T : ℕ)
    (cache : Option (List (List (List ℚ)) × List (List (List ℕ))))
    (loader : DataRow → Option (List (List ℚ) × List (List ℕ)))
    (row : DataRow) (label : ℤ) (jp : List (List ℚ)) (ri : List (List ℕ))
    (hl : getitem_label num_classes row = some label)
    (hf : fetch_raw cache loader row = some (jp, ri))
    (hlen : ri.length = jp.length)
    (hlt : jp.length < T) :
    ∃ j i, dataset_getitem num_classes T cache loader row = some (j, i, label) ∧
      j.length = T ∧ i.length = T ∧
      (∀ k r, jp.length ≤ k → j.get? k = some r → ∀ x ∈ r, x = 0) ∧
      (∀ k fr, jp.length ≤ k → i.get? k = some fr → ∀ x ∈ fr, x = 0) := by
  refine ⟨_, _, dataset_getitem_eq num_classes T cache loader row label jp ri hl hf,
    ?_, ?_, ?_, ?_⟩
  · rw [if_pos hlt]
    simp only [List.length_append, List.length_replicate]
    omega
  · rw [if_pos hlt]
    simp only [List.length_append, List.length_replicate, List.length_map, hlen]
    omega
  · intro k r hk hget
    rw [if_pos hlt, List.get?_append_right hk, List.get?_eq_getElem?,
      List.getElem?_replicate] at hget
    by_cases hm : k - jp.length < T - jp.length
    · rw [if_pos hm] at hget
      have hr : r = zeroRowLike (jp.headD []) := (Option.some_inj.mp hget).symm
      subst hr
      exact fun x hx => zeroRowLike_mem hx
    · rw [if_neg hm] at hget
      cases hget
  · intro k fr hk hget
    have hk2 : (ri.map (fun f => f.map (fun p : ℕ => (p : ℚ) / 255))).length ≤ k := by
      rw [List.length_map, hlen]
      exact hk
    rw [if_pos hlt, List.get?_append_right hk2, List.get?_eq_getElem?,
      List.getElem?_replicate] at hget
    rw [List.length_map, hlen] at hget
    by_cases hm : k - jp.length < T - jp.length
    · rw [if_pos hm] at hget
      have hr : fr = zeroRowLike
          ((ri.map (fun f => f.map (fun p : ℕ => (p : ℚ) / 255))).headD []) :=
        (Option.some_inj.mp hget).symm
      subst hr
      exact fun x hx => zeroRowLike_mem hx
    · rw [if_neg hm] at hget
      cases hget

/-- C5 witness: one loaded frame, `T = 2`, row `(1, 1, 3, 1, 5, 12, 10, 0)`. -/
theorem getitem_padding_spec_witness :
    ∃ j i, dataset_getitem 14 2 (some ([[[]]], [[[]]])) (fun _ => none)
        ⟨1, 1, 3, 1, 5, 12, 10, 0⟩ = some (j, i, 4) ∧
      j.length = 2 ∧ i.length = 2 ∧
      (∀ k r, ([[]] : List (List ℚ)).length ≤ k → j.get? k = some r → ∀ x ∈ r, x = 0) ∧
      (∀ k fr, ([[]] : List (List ℚ)).length ≤ k → i.get? k = some fr → ∀ x ∈ fr, x = 0) :=
  getitem_padding_spec 14 2 (some ([[[]]], [[[]]])) (fun _ => none)
    ⟨1, 1, 3, 1, 5, 12, 10, 0⟩ 4 [[]] [[]] rfl rfl rfl (by decide)

/-- C10 (confirmed): when the loaded joint sequence has at least `T` frames,
the retrieval applies no length adjustment: the joint tensor is returned
exactly as loaded and the image tensor is only rescaled by `1/255`, which
preserves its loaded frame count — padding is the only length change and it
happens only below `T`. -/
theorem getitem_no_truncation (num_classes : ℤ) (T : ℕ)
    (cache : Option (List (List (List ℚ)) × List (List (List ℕ))))
    (loader : DataRow → Option (List (List ℚ) × List (List ℕ)))
    (row : DataRow) (label : ℤ) (jp : List (List ℚ)) (ri : List (List ℕ))
    (hl : getitem_label num_classes row = some label)
    (hf : fetch_raw cache loader row = some (jp, ri))
    (hge : T ≤ jp.length) :
    dataset_getitem num_classes T cache loader row
      = some (jp, ri.map (fun f => f.map (fun p : ℕ => (p : ℚ) / 255)), label) ∧
    (ri.map (fun f => f.map (fun p : ℕ => (p : ℚ) / 255))).length = ri.length := by
  constructor
  · rw [dataset_getitem_eq num_classes T cache loader row label jp ri hl hf,
      if_neg (Nat.not_lt.mpr hge), if_neg (Nat.not_lt.mpr hge)]
  · exact List.length_map _ _

/-- C10 witness: one loaded frame and `T = 1` (no padding, no truncation). -/
theorem getitem_no_truncation_witness :
    dataset_getitem 14 1 (some ([[[]]], [[[]]])) (fun _ => none) ⟨1, 1, 3, 1, 5, 12, 10, 0⟩
      = some ([[]],
          ([[]] : List (List ℕ)).map (fun f => f.map (fun p : ℕ => (p : ℚ) / 255)), 4) ∧
    (([[]] : List (List ℕ)).map (fun f => f.map (fun p : ℕ => (p : ℚ) / 255))).length
      = ([[]] : List (List ℕ)).length :=
  getitem_no_truncation 14 1 (some ([[[]]], [[[]]])) (fun _ => none)
    ⟨1, 1, 3, 1, 5, 12, 10, 0⟩ 4 [[]] [[]] rfl rfl (by decide)

/-! ### The joint loader -/

theorem getD_map_range (f : ℕ → ℚ) (n p : ℕ) (hp : p < n) :
    ((List.range n).map f).getD p 0 = f p := by
  rw [List.getD_eq_getElem?_getD, List.getElem?_map, List.getElem?_range hp]
  rfl

theorem getD_map_lt {γ δ : Type} (f : γ → δ) (l : List γ) (i : ℕ) (dg : γ) (dd : δ)
    (hi : i < l.length) :
    (l.map f).getD i dd = f (l.getD i dg) := by
  rw [List.getD_eq_getElem?_getD, List.getElem?_map, List.getElem?_eq_getElem hi,
    List.getD_eq_getElem?_getD, List.getElem?_eq_getElem hi]
  rfl

theorem getD_mem_of_lt {γ : Type} (l : List γ) (i : ℕ) (d : γ) (hi : i < l.length) :
    l.getD i d ∈ l := by
  rw [List.getD_eq_getElem?_getD, List.getElem?_eq_getElem hi]
  exact List.get_mem l i hi

theorem addCoordOffset_length (D : ℕ) (c : List ℚ) (r : List ℚ) :
    (addCoordOffset D c r).length = r.length := by
  simp [addCoordOffset]

theorem addCoordOffset_getD (D : ℕ) (c : List ℚ) (r : List ℚ) (p : ℕ) (hp : p < r.length) :
    (addCoordOffset D c r).getD p 0 = r.getD p 0 + c.getD (p % D) 0 :=
  getD_map_range _ _ _ hp

theorem mapM_get?_eq_map {γ : Type} (g : List γ) (d : γ) :
    ∀ (idxs : List ℕ), (∀ i ∈ idxs, i < g.length) →
      idxs.mapM (fun i => g.get? i) = some (idxs.map (fun i => g.getD i d)) := by
  intro idxs
  induction idxs with
  | nil => intro _; rfl
  | cons a t ih =>
    intro h
    have ha : a < g.length := h a (List.mem_cons_self a t)
    have hga : g.get? a = some (g.getD a d) := by
      rw [List.get?_eq_getElem?, List.getElem?_eq_getElem ha,
        List.getD_eq_getElem?_getD, List.getElem?_eq_getElem ha]
      rfl
    rw [List.mapM_cons, hga, ih (fun i hi => h i (List.mem_cons_of_mem a hi))]
    rfl

/-- Unfolding of `load_joints` on a nonempty in-range selection whose first
selected row has a width divisible by 22. -/
theorem load_joints_eq (file : List (List ℚ)) (a : ℕ) (t : List ℕ)
    (ha : ∀ i ∈ a :: t, i < file.length)
    (hdvd : 22 * ((file.getD a []).length / 22) = (file.getD a []).length) :
    load_joints file (a :: t) = some (((a :: t).map (fun i => file.getD i [])).map
      (fun r => (List.range r.length).map
        (fun i => r.getD i 0 -
          (file.getD a []).getD ((file.getD a []).length / 22 +
            i % ((file.getD a []).length / 22)) 0))) := by
  unfold load_joints
  rw [mapM_get?_eq_map file [] (a :: t) ha]
  simp only [Option.bind_eq_bind, Option.some_bind, List.map_cons, List.head?_cons]
  rw [if_pos hdvd]

/-- C6 (confirmed): for every valid joint file (rows of width `22 * D` with
`D ≥ 1`) and nonempty in-range sampled index set, the loader's output has
the coordinates of reference joint 1 of the first sampled frame exactly
zero, and adding a constant per-coordinate offset to every joint of every
input frame leaves the output unchanged. -/
theorem load_joints_recenter (file : List (List ℚ)) (idxs : List ℕ) (D : ℕ) (c : List ℚ)
    (hD : 0 < D)
    (hw : ∀ r ∈ file, r.length = 22 * D)
    (hne : idxs ≠ [])
    (hidx : ∀ i ∈ idxs, i < file.length) :
    (∃ out, load_joints file idxs = some out ∧
       ∀ jc < D, (out.headD []).getD (D + jc) 0 = 0) ∧
    load_joints (file.map (addCoordOffset D c)) idxs = load_joints file idxs := by
  obtain ⟨a, t, rfl⟩ := List.exists_cons_of_ne_nil hne
  have ha : a < file.length := hidx a (List.mem_cons_self a t)
  have hr0mem : file.getD a [] ∈ file := getD_mem_of_lt file a [] ha
  have hr0len : (file.getD a []).length = 22 * D := hw _ hr0mem
  have hDdef : (file.getD a []).length / 22 = D := by
    rw [hr0len]
    exact Nat.mul_div_cancel_left D (by norm_num)
  have hdvd : 22 * ((file.getD a []).length / 22) = (file.getD a []).length := by
    rw [hDdef, hr0len]
  constructor
  · refine ⟨_, load_joints_eq file a t hidx hdvd, ?_⟩
    intro jc hjc
    simp only [List.map_cons, List.headD_cons]
    rw [getD_map_range _ _ _ (by rw [hr0len]; omega), hDdef, Nat.add_mod_left,
      Nat.mod_eq_of_lt hjc, sub_self]
  · have hidx2 : ∀ i ∈ a :: t, i < (file.map (addCoordOffset D c)).length := by
      intro i hi
      rw [List.length_map]
      exact hidx i hi
    have hgetD : ∀ i, i < file.length →
        (file.map (addCoordOffset D c)).getD i [] = addCoordOffset D c (file.getD i []) :=
      fun i hi => getD_map_lt _ _ _ _ _ hi
    have hdvd2 : 22 * (((file.map (addCoordOffset D c)).getD a []).length / 22)
        = ((file.map (addCoordOffset D c)).getD a []).length := by
      rw [hgetD a ha, addCoordOffset_length]
      exact hdvd
    rw [load_joints_eq file a t hidx hdvd,
      load_joints_eq (file.map (addCoordOffset D c)) a t hidx2 hdvd2]
    congr 1
    rw [List.map_map, List.map_map]
    apply List.map_congr_left
    intro i hi
    have hil : i < file.length := hidx i hi
    simp only [Function.comp]
    rw [hgetD i hil, hgetD a ha]
    simp only [addCoordOffset_length]
    rw [hDdef]
    apply List.map_congr_left
    intro p hp
    have hpl : p < (file.getD i []).length := List.mem_range.mp hp
    have hpm : p % D < D := Nat.mod_lt p hD
    rw [addCoordOffset_getD D c (file.getD i []) p hpl,
      addCoordOffset_getD D c (file.getD a []) (D + p % D) (by rw [hr0len]; omega),
      Nat.add_mod_left, Nat.mod_eq_of_lt hpm]
    ring

/-- C6 witness: a one-row joint file of width 44 (`D = 2`), selection `[0]`,
offset `[1, 2]`. -/
theorem load_joints_recenter_witness :
    (∃ out, load_joints [List.replicate 44 (0 : ℚ)] [0] = some out ∧
       ∀ jc < 2, (out.headD []).getD (2 + jc) 0 = 0) ∧
    load_joints ([List.replicate 44 (0 : ℚ)].map (addCoordOffset 2 [1, 2])) [0]
      = load_joints [List.replicate 44 (0 : ℚ)] [0] :=
  load_joints_recenter [List.replicate 44 (0 : ℚ)] [0] 2 [1, 2] (by decide)
    (by
      intro r hr
      rw [List.mem_singleton.mp hr]
      simp)
    (by simp)
    (by
      intro i hi
      rw [List.mem_singleton.mp hi]
      simp)

/-! ### The cache-miss loading path -/

/-- C1 (code evaluation at the failing input): for the data-list row
`(1, 1, 3, 1, 5, 12, 10, 0)` — and in fact for every row, file system, and
`T` — the cache-miss loading path `get_image_joint` fails before producing
anything: its first step is the two-argument call `get_samples(num_frames,
T)` to the three-parameter `get_samples(start, end, T)`, a `TypeError`.
The second conjunct records what the spec scenario expects of the sampler at
this row when called as documented, `get_samples(0, num_frames - 1, T)` with
`num_frames = 10`, `T = 8`: the 8 evenly spaced indices over `[0, 9]`
including both endpoints, confirming the spec's intent is realisable with
the missing `start` argument. -/
theorem get_image_joint_always_fails :
    (∀ (jointFile : List (List ℚ)) (image_dir : ℤ → Option (List ℕ))
       (gvar : Option (List ℕ → List ℕ)) (T : ℤ),
       get_image_joint jointFile image_dir gvar ⟨1, 1, 3, 1, 5, 12, 10, 0⟩ T = none) ∧
    get_samples 0 9 8 = [0, 1, 2, 3, 5, 6, 7, 9] := by
  constructor
  · intro jointFile image_dir gvar T
    rfl
  · rw [get_samples_eq_map_tdiv 0 9 8 (by omega) (by omega)]
    decide
end MFCRNN
